import Mathlib

/-!
Shallow embedding of `scripts/backfill-workspace-events.py`
(workspace GitHub-events backfill engine) and proofs about it.

Timestamps are modelled as `Int` (seconds); JSON values as a small
inductive; the Postgres table `github_events_cache` as a list of rows;
the GitHub API feed as the finite list of responses the server returns
to the successive `requests.get` calls made by the paging loop.
-/

namespace Backfill

/-- A JSON value, for event payloads. -/
inductive JVal where
  | s (v : String)
  | n (v : Int)
  | b (v : Bool)
  | null
  | obj (fields : List (String × JVal))


/-- Python `dict.update`: overriding keys keep their position, new keys are
appended in order. Models `payload.update(event["payload"])`. -/
def dictUpdate (base upd : List (String × JVal)) : List (String × JVal) :=
  upd.foldl
    (fun acc kv =>
      if acc.any (fun p => p.1 == kv.1) then
        acc.map (fun p => if p.1 == kv.1 then kv else p)
      else acc ++ [kv])
    base

/-- The `event["actor"]` object of a raw GitHub event. -/
structure Actor where
  id : Int
  login : String
  avatar_url : String

/-- The `event["repo"]` object of a raw GitHub event. -/
structure Repo where
  id : Int
  name : String
  url : String

/-- A raw event record from the GitHub events API. `created_at` is the parsed
timestamp; `action` is `event.get("action")`; `payload` is
`event["payload"]` when the key is present. -/
structure RawEvent where
  id : String
  type : String
  created_at : Int
  actor : Actor
  repo : Repo
  public : Bool
  action : Option String
  payload : Option (List (String × JVal))

/-- The event-type allow list of `get_repo_events`. -/
def allowedTypes : List String :=
  ["WatchEvent", "ForkEvent", "PullRequestEvent", "IssuesEvent", "StarEvent"]

/-- One response of the GitHub API to a page fetch.
`exn` stands for `requests.get` itself raising (transport error). -/
inductive GHResponse where
  | notFound
  | forbidden (reset : Option Int)
  | otherStatus
  | ok (events : List RawEvent)
  | exn

/-- Result of one `get_repo_events` call: the returned event list together
with the increments this call makes to the global stats counters.
`rawSeen` and `pagesRequested` are ghost instrumentation (not stats the
script keeps) used to state resource bounds: `rawSeen` counts the raw
records of the successful pages that entered the filter loop, and
`pagesRequested` lists the `page` parameter of each completed API call,
in order. -/
structure FetchResult where
  events : List RawEvent
  apiCalls : Nat
  errors : Nat
  eventsFetched : Nat
  rawSeen : Nat
  pagesRequested : List Nat

/-- The `for event in page_events` filter loop: walk the page in order,
retaining in-window events of allowed types; at the first event older than
the cutoff, stop and report that the cutoff was reached (second component
`true`); events after it are not examined. -/
def filterPage (cutoff : Int) : List RawEvent → List RawEvent × Bool
  | [] => ([], false)
  | e :: rest =>
    if cutoff ≤ e.created_at then
      (if allowedTypes.contains e.type then e :: (filterPage cutoff rest).1
       else (filterPage cutoff rest).1,
       (filterPage cutoff rest).2)
    else ([], true)

/-- The `while page <= 10` loop of `get_repo_events`. `resps` is the list
of responses the server gives to the successive fetches; running out of
responses is modelled like a transport exception (the `except` branch).
`now` is the clock, advanced by rate-limit sleeps; `acc` the `events`
list; `api`, `err` the per-call increments to `api_calls` / `errors`.
Every exit path sets `eventsFetched` to the length of the returned list,
matching `self.stats["events_fetched"] += len(events)` on each return. -/
def getRepoEventsLoop (cutoff : Int) :
    List GHResponse → Nat → Int → List RawEvent → Nat → Nat → Nat → List Nat → FetchResult
  | [], page, _now, acc, api, err, raw, pagesReq =>
    if page > 10 then ⟨acc, api, err, acc.length, raw, pagesReq⟩
    else ⟨acc, api, err + 1, acc.length, raw, pagesReq⟩
  | resp :: rest, page, now, acc, api, err, raw, pagesReq =>
    if page > 10 then ⟨acc, api, err, acc.length, raw, pagesReq⟩
    else
      match resp with
      | .exn => ⟨acc, api, err + 1, acc.length, raw, pagesReq⟩
      | .notFound => ⟨acc, api + 1, err, acc.length, raw, pagesReq ++ [page]⟩
      | .forbidden none => ⟨acc, api + 1, err, acc.length, raw, pagesReq ++ [page]⟩
      | .forbidden (some reset) =>
        if max 0 (reset - now + 60) < 3600 then
          getRepoEventsLoop cutoff rest page (now + max 0 (reset - now + 60)) acc (api + 1)
            err raw (pagesReq ++ [page])
        else ⟨acc, api + 1, err, acc.length, raw, pagesReq ++ [page]⟩
      | .otherStatus => ⟨acc, api + 1, err, acc.length, raw, pagesReq ++ [page]⟩
      | .ok pageEvents =>
        if pageEvents.isEmpty then
          ⟨acc, api + 1, err, acc.length, raw, pagesReq ++ [page]⟩
        else if (filterPage cutoff pageEvents).2 then
          ⟨acc ++ (filterPage cutoff pageEvents).1, api + 1, err,
            (acc ++ (filterPage cutoff pageEvents).1).length,
            raw + pageEvents.length, pagesReq ++ [page]⟩
        else
          getRepoEventsLoop cutoff rest (page + 1) now
            (acc ++ (filterPage cutoff pageEvents).1) (api + 1) err
            (raw + pageEvents.length) (pagesReq ++ [page])

/-- Function `get_repo_events`: run the paging loop from page 1 with empty
accumulators. `now` is the wall clock at the start of the call; the
caller computed `cutoff = now - days_back` beforehand. -/
def get_repo_events (responses : List GHResponse) (now cutoff : Int) : FetchResult :=
  getRepoEventsLoop cutoff responses 1 now [] 0 0 0 []

/-- One row of the `github_events_cache` table. `processed_at` and
`processing_notes` are nullable columns. -/
structure CacheRow where
  event_id : String
  event_type : String
  actor_login : String
  repository_owner : String
  repository_name : String
  payload : List (String × JVal)
  created_at : Int
  processed_at : Option Int
  processing_notes : Option String

/-- The `github_events_cache` table, as the list of its rows. -/
abbrev Store := List CacheRow

/-- SQL `COALESCE(x, '')`. -/
def coalesce : Option String → String
  | none => ""
  | some v => v

/-- Does the table hold a row with unique key `(event_id, created_at)`? -/
def hasKey (store : Store) (eid : String) (cat : Int) : Bool :=
  store.any (fun r => r.event_id == eid && r.created_at == cat)

/-- The `ON CONFLICT ... DO UPDATE SET` part of the insert statement:
set `processed_at = NOW()` and append the backfill marker to the
existing `processing_notes`; every other column keeps its value. -/
def touchRow (now : Int) (r : CacheRow) : CacheRow :=
  { r with
    processed_at := some now,
    processing_notes :=
      some (coalesce r.processing_notes ++ "; Updated from workspace backfill") }

/-- Semantics of `INSERT INTO github_events_cache ... ON CONFLICT
(event_id, created_at) DO UPDATE SET ...`: a fresh key appends the row,
a conflicting key only touches the existing row's metadata. -/
def upsert (store : Store) (row : CacheRow) (now : Int) : Store :=
  if store.any (fun r => r.event_id == row.event_id && r.created_at == row.created_at) then
    store.map (fun r =>
      if r.event_id == row.event_id && r.created_at == row.created_at then touchRow now r
      else r)
  else store ++ [row]

/-- Python `s.split("/", 1)` unpacked into exactly two variables: split at
the first slash; with no slash the unpack raises `ValueError` (`none`). -/
def splitFirstAux (acc : List Char) : List Char → Option (String × String)
  | [] => none
  | c :: cs =>
    if c = '/' then some (String.mk acc.reverse, String.mk cs)
    else splitFirstAux (c :: acc) cs

/-- Python `repo_full_name.split("/", 1)` as used by `insert_event`. -/
def splitFirst (s : String) : Option (String × String) :=
  splitFirstAux [] s.data

/-- The `payload` dict built by `insert_event`: provenance plus selected
raw fields, then overlaid by the event's own payload when present
(upstream keys take precedence on collision, via `dict.update`). -/
def mkPayload (e : RawEvent) (now : Int) : List (String × JVal) :=
  let base : List (String × JVal) :=
    [("action", match e.action with | some a => JVal.s a | none => JVal.null),
     ("actor", JVal.obj
        [("id", JVal.n e.actor.id), ("login", JVal.s e.actor.login),
         ("avatar_url", JVal.s e.actor.avatar_url)]),
     ("repo", JVal.obj
        [("id", JVal.n e.repo.id), ("name", JVal.s e.repo.name),
         ("url", JVal.s e.repo.url)]),
     ("public", JVal.b e.public),
     ("backfill_source", JVal.s ("workspace_backfill")),
     ("backfill_date", JVal.n now)]
  match e.payload with
  | some p => dictUpdate base p
  | none => base

/-- The run's global stats counters (`self.stats`). -/
structure Stats where
  repos_processed : Nat
  events_fetched : Nat
  events_inserted : Nat
  api_calls : Nat
  errors : Nat

/-- The zero-initialised stats of `__init__`. -/
def stats0 : Stats := ⟨0, 0, 0, 0, 0⟩

/-- Function `insert_event`: derive owner/name by splitting `repo.name` at the
first slash (no slash raises, caught by the handler: `errors += 1`,
return `False`); otherwise upsert the row and count it as inserted. -/
def insert_event (store : Store) (stats : Stats) (e : RawEvent) (now : Int) :
    Store × Stats × Bool :=
  match splitFirst e.repo.name with
  | none => (store, { stats with errors := stats.errors + 1 }, false)
  | some ow =>
    let row : CacheRow :=
      { event_id := e.id
        event_type := e.type
        actor_login := e.actor.login
        repository_owner := ow.1
        repository_name := ow.2
        payload := mkPayload e now
        created_at := e.created_at
        processed_at := none
        processing_notes := some ("Workspace backfill on " ++ toString now) }
    (upsert store row now, { stats with events_inserted := stats.events_inserted + 1 }, true)

/-- One iteration of the insert loop of `backfill_repository`: write one
event (committing on success, rolling back on failure). -/
def insertStep (now : Int) (p : Store × Stats) (e : RawEvent) : Store × Stats :=
  let r := insert_event p.1 p.2 e now
  (r.1, r.2.1)

/-- Fold the fetch-call's stat increments into the global stats. -/
def addFetchStats (stats : Stats) (fr : FetchResult) : Stats :=
  { stats with
    api_calls := stats.api_calls + fr.apiCalls,
    errors := stats.errors + fr.errors,
    events_fetched := stats.events_fetched + fr.eventsFetched }

/-- Function `backfill_repository`: fetch the repository's events; with an empty
result return at once (no `repos_processed` increment); otherwise insert
each event and then count the repository as processed. -/
def backfill_repository (store : Store) (stats : Stats) (responses : List GHResponse)
    (now cutoff : Int) : Store × Stats :=
  let fr := get_repo_events responses now cutoff
  let stats1 := addFetchStats stats fr
  if fr.events.isEmpty then (store, stats1)
  else
    let p := fr.events.foldl (insertStep now) (store, stats1)
    (p.1, { p.2 with repos_processed := p.2.repos_processed + 1 })

/-- How one repository of the run behaves: either `backfill_repository`
runs to completion on its feed, or an exception escapes it after the
first `k` fetched events were written and committed (the orchestrator's
per-repository `except Exception` branch). -/
inductive RepoStep where
  | ok (responses : List GHResponse)
  | raisesAfter (responses : List GHResponse) (k : Nat)

/-- One iteration of the repository loop of `run_backfill`: a normal
repository runs `backfill_repository`; a raising one does its work up to
the raise point, then the handler adds one to `errors` and the loop
continues. -/
def run_step (now cutoff : Int) (p : Store × Stats) : RepoStep → Store × Stats
  | .ok responses => backfill_repository p.1 p.2 responses now cutoff
  | .raisesAfter responses k =>
    let fr := get_repo_events responses now cutoff
    let q := (fr.events.take k).foldl (insertStep now) (p.1, addFetchStats p.2 fr)
    (q.1, { q.2 with errors := q.2.errors + 1 })

/-- The repository loop of `run_backfill` over the directory lookup's
list, with per-repository exception isolation. -/
def run_backfill (store : Store) (stats : Stats) (repos : List RepoStep)
    (now cutoff : Int) : Store × Stats :=
  repos.foldl (run_step now cutoff) (store, stats)

/-- Python truthiness of an optional environment string: `None` and `""`
are falsy. -/
def truthy : Option String → Bool
  | none => false
  | some v => !(v == "")

/-- Python `s.startswith(pre)`, on the underlying character lists. -/
def pyStartsWith (s pre : String) : Bool :=
  pre.data.isPrefixOf s.data

/-- The `__init__` configuration checks: `SUPABASE_URL` and
`SUPABASE_DB_PASSWORD` must be set and non-empty, and `GITHUB_TOKEN`
must be set, non-empty and not a `your_`-prefixed placeholder. -/
def validSetup (url pw tok : Option String) : Bool :=
  truthy url && truthy pw && (truthy tok && !(pyStartsWith (coalesce tok) ("your_")))

/-- Function `main` plus `sys.exit`: a constructor failure is an uncaught
exception (interpreter exit status 1); an exception out of
`run_backfill` — in particular the directory lookup erroring — is caught
and returns 1; otherwise the run completes and returns 0. The directory
lookup is modelled by its outcome `lookup`. -/
def main_model (url pw tok : Option String) (lookup : Except Unit (List RepoStep))
    (store : Store) (now cutoff : Int) : Nat × Store × Stats :=
  if validSetup url pw tok then
    match lookup with
    | .error _ => (1, store, stats0)
    | .ok repos =>
      let p := run_backfill store stats0 repos now cutoff
      (0, p.1, p.2)
  else (1, store, stats0)

/-! Concrete sample inputs, used by counterexamples and witnesses. -/

/-- A sample actor. -/
def sampleActor : Actor :=
  { id := 7, login := "alice", avatar_url := "https://a" }

/-- A watch event inside the cutoff window, on repository `o/r`. -/
def evWatch : RawEvent :=
  { id := "e1", type := "WatchEvent", created_at := 5, actor := sampleActor,
    repo := { id := 11, name := "o/r", url := "https://r" }, public := true,
    action := none, payload := none }

/-- A push event (not in the allow list) inside the cutoff window. -/
def evPush : RawEvent :=
  { id := "e2", type := "PushEvent", created_at := 5, actor := sampleActor,
    repo := { id := 11, name := "o/r", url := "https://r" }, public := true,
    action := none, payload := none }

/-- A watch event older than the cutoff. -/
def evOld : RawEvent :=
  { id := "e3", type := "WatchEvent", created_at := -5, actor := sampleActor,
    repo := { id := 11, name := "o/r", url := "https://r" }, public := true,
    action := none, payload := none }

/-- A watch event whose `repo.name` holds two slashes. -/
def evMulti : RawEvent :=
  { id := "e4", type := "WatchEvent", created_at := 5, actor := sampleActor,
    repo := { id := 11, name := "a/b/c", url := "https://r" }, public := true,
    action := none, payload := none }

/-- A watch event whose `repo.name` holds no slash. -/
def evNoSlash : RawEvent :=
  { id := "e5", type := "WatchEvent", created_at := 5, actor := sampleActor,
    repo := { id := 11, name := "abc", url := "https://r" }, public := true,
    action := none, payload := none }

/-- An existing cache row whose key collides with `evWatch`. -/
def sampleRow : CacheRow :=
  { event_id := "e1", event_type := "WatchEvent", actor_login := "bob",
    repository_owner := "o", repository_name := "r", payload := [],
    created_at := 5, processed_at := none,
    processing_notes := some ("original notes") }

/-! ## Supporting lemmas -/

/-- The retention test of the fetch loop: inside the cutoff window and of
an allowed event type. -/
def retainQ (cutoff : Int) (e : RawEvent) : Bool :=
  decide (cutoff ≤ e.created_at) && allowedTypes.contains e.type

/-- Every event retained by the page filter loop is inside the cutoff
window and of an allowed type. -/
theorem filterPage_mem_retained (cutoff : Int) (l : List RawEvent) :
    ∀ e ∈ (filterPage cutoff l).1,
      cutoff ≤ e.created_at ∧ e.type ∈ allowedTypes := by
  induction l with
  | nil => intro e he; simp [filterPage] at he
  | cons x xs ih =>
    intro e he
    by_cases hx : cutoff ≤ x.created_at
    · by_cases ht : x.type ∈ allowedTypes
      · simp [filterPage, hx, ht] at he
        rcases he with he | he
        · subst he; exact ⟨hx, ht⟩
        · exact ih e he
      · simp [filterPage, hx, ht] at he
        exact ih e he
    · simp [filterPage, hx] at he

/-- On every exit path of the paging loop, the `events_fetched` increment
equals the length of the returned event list. -/
theorem loop_eventsFetched (cutoff : Int) :
    ∀ (resps : List GHResponse) (page : Nat) (now : Int) (acc : List RawEvent)
      (api err raw : Nat) (pr : List Nat),
      (getRepoEventsLoop cutoff resps page now acc api err raw pr).eventsFetched
        = (getRepoEventsLoop cutoff resps page now acc api err raw pr).events.length := by
  intro resps
  induction resps with
  | nil =>
    intro page now acc api err raw pr
    by_cases h : page > 10 <;> simp [getRepoEventsLoop, h]
  | cons resp rest ih =>
    intro page now acc api err raw pr
    by_cases h : page > 10
    · simp [getRepoEventsLoop, h]
    · cases resp with
      | exn => simp [getRepoEventsLoop, h]
      | notFound => simp [getRepoEventsLoop, h]
      | otherStatus => simp [getRepoEventsLoop, h]
      | forbidden reset =>
        cases reset with
        | none => simp [getRepoEventsLoop, h]
        | some r =>
          by_cases hw : max 0 (r - now + 60) < 3600 <;>
            simp [getRepoEventsLoop, h, hw, ih]
      | ok pageEvents =>
        by_cases hemp : pageEvents.isEmpty <;>
          by_cases hhit : (filterPage cutoff pageEvents).2 <;>
            simp [getRepoEventsLoop, h, hemp, hhit, ih]

/-- If the accumulator holds only retained events, so does the list the
paging loop returns. -/
theorem loop_events_retained (cutoff : Int) :
    ∀ (resps : List GHResponse) (page : Nat) (now : Int) (acc : List RawEvent)
      (api err raw : Nat) (pr : List Nat),
      (∀ e ∈ acc, cutoff ≤ e.created_at ∧ e.type ∈ allowedTypes) →
      ∀ e ∈ (getRepoEventsLoop cutoff resps page now acc api err raw pr).events,
        cutoff ≤ e.created_at ∧ e.type ∈ allowedTypes := by
  intro resps
  induction resps with
  | nil =>
    intro page now acc api err raw pr hacc e he
    by_cases h : page > 10 <;> simp [getRepoEventsLoop, h] at he <;> exact hacc e he
  | cons resp rest ih =>
    intro page now acc api err raw pr hacc e he
    by_cases h : page > 10
    · simp [getRepoEventsLoop, h] at he; exact hacc e he
    · cases resp with
      | exn => simp [getRepoEventsLoop, h] at he; exact hacc e he
      | notFound => simp [getRepoEventsLoop, h] at he; exact hacc e he
      | otherStatus => simp [getRepoEventsLoop, h] at he; exact hacc e he
      | forbidden reset =>
        cases reset with
        | none => simp [getRepoEventsLoop, h] at he; exact hacc e he
        | some r =>
          by_cases hw : max 0 (r - now + 60) < 3600
          · simp only [getRepoEventsLoop, if_neg h, if_pos hw] at he
            exact ih page (now + max 0 (r - now + 60)) acc (api + 1) err raw
              (pr ++ [page]) hacc e he
          · simp [getRepoEventsLoop, h, hw] at he; exact hacc e he
      | ok pageEvents =>
        by_cases hemp : pageEvents.isEmpty
        · simp [getRepoEventsLoop, h, hemp] at he; exact hacc e he
        · by_cases hhit : (filterPage cutoff pageEvents).2
          · simp [getRepoEventsLoop, h, hemp, hhit] at he
            rcases he with he | he
            · exact hacc e he
            · exact filterPage_mem_retained cutoff pageEvents e he
          · simp only [getRepoEventsLoop, if_neg h, Bool.not_eq_true] at he
            rw [if_neg (by simp [hemp]), if_neg (by simp [hhit])] at he
            refine ih (page + 1) now (acc ++ (filterPage cutoff pageEvents).1) (api + 1)
              err (raw + pageEvents.length) (pr ++ [page]) ?_ e he
            intro x hx
            rcases List.mem_append.mp hx with hx | hx
            · exact hacc x hx
            · exact filterPage_mem_retained cutoff pageEvents x hx

/-! ## Claim theorems -/

/-- C10: for every feed, the `events_fetched` increment of a
`get_repo_events` call equals exactly the number of retained events (in
the cutoff window and of an allowed type), never the number of raw
records the feed returned. -/
theorem eventsFetched_counts_retained (responses : List GHResponse) (now cutoff : Int) :
    (get_repo_events responses now cutoff).eventsFetched
        = (get_repo_events responses now cutoff).events.length
      ∧ (get_repo_events responses now cutoff).events.all (retainQ cutoff) = true := by
  constructor
  · exact loop_eventsFetched cutoff responses 1 now [] 0 0 0 []
  · rw [List.all_eq_true]
    intro e he
    have h := loop_events_retained cutoff responses 1 now [] 0 0 0 [] (by simp) e he
    simp only [retainQ, Bool.and_eq_true, decide_eq_true_eq]
    exact ⟨h.1, by simpa using h.2⟩

/-- The writer never touches the `repos_processed` counter. -/
theorem insertStep_repos_processed (now : Int) (p : Store × Stats) (e : RawEvent) :
    (insertStep now p e).2.repos_processed = p.2.repos_processed := by
  unfold insertStep insert_event
  cases h : splitFirst e.repo.name <;> simp [h]

/-- The insert loop never touches the `repos_processed` counter. -/
theorem foldl_insertStep_repos_processed (now : Int) :
    ∀ (l : List RawEvent) (p : Store × Stats),
      ((l.foldl (insertStep now) p).2).repos_processed = p.2.repos_processed := by
  intro l
  induction l with
  | nil => intro p; rfl
  | cons x xs ih => intro p; rw [List.foldl_cons, ih, insertStep_repos_processed]

/-- C9: `backfill_repository` increments `repos_processed` exactly when
the cursor returned at least one retained event; with an empty event
list it returns before the increment, so the counter counts only
repositories that yielded events, not every repository attempted. -/
theorem repos_processed_only_with_events (store : Store) (stats : Stats)
    (responses : List GHResponse) (now cutoff : Int) :
    (backfill_repository store stats responses now cutoff).2.repos_processed
      = if (get_repo_events responses now cutoff).events.isEmpty
        then stats.repos_processed
        else stats.repos_processed + 1 := by
  unfold backfill_repository
  by_cases h : (get_repo_events responses now cutoff).events.isEmpty
  · simp [h, addFetchStats]
  · simp [h, addFetchStats, foldl_insertStep_repos_processed]

/-- On a key conflict, the upsert leaves the table's rows in place and
only touches the metadata of the rows with the conflicting key. -/
theorem upsert_conflict (store : Store) (row : CacheRow) (now : Int)
    (hkey : hasKey store row.event_id row.created_at = true) :
    upsert store row now
      = store.map (fun r =>
          if r.event_id == row.event_id && r.created_at == row.created_at
          then touchRow now r else r) := by
  unfold upsert
  unfold hasKey at hkey
  rw [if_pos hkey]

/-- C1: writing an event whose `(event_id, created_at)` key already
exists does not create a second row: the store keeps its length, and
each row is either untouched or — when it carries the conflicting key —
replaced by `touchRow`, which only refreshes `processed_at` and appends
the marker to `processing_notes`, keeping every other column. -/
theorem insert_event_conflict_updates_metadata_only
    (store : Store) (stats : Stats) (e : RawEvent) (now : Int)
    (hsplit : (splitFirst e.repo.name).isSome = true)
    (hkey : hasKey store e.id e.created_at = true) :
    (insert_event store stats e now).1
        = store.map (fun r =>
            if r.event_id == e.id && r.created_at == e.created_at then touchRow now r
            else r)
      ∧ ((insert_event store stats e now).1).length = store.length := by
  obtain ⟨ow, how⟩ := Option.isSome_iff_exists.mp hsplit
  have h1 : (insert_event store stats e now).1
      = store.map (fun r =>
          if r.event_id == e.id && r.created_at == e.created_at then touchRow now r
          else r) := by
    unfold insert_event
    rw [how]
    exact upsert_conflict store _ now hkey
  exact ⟨h1, by rw [h1, List.length_map]⟩

/-- Witness for C1: a store holding the key of `evWatch` is only touched
in its metadata by a second write. -/
theorem insert_event_conflict_updates_metadata_only_witness :
    (splitFirst evWatch.repo.name).isSome = true
      ∧ hasKey [sampleRow] evWatch.id evWatch.created_at = true
      ∧ (insert_event [sampleRow] stats0 evWatch 3).1
          = [sampleRow].map (fun r =>
              if r.event_id == evWatch.id && r.created_at == evWatch.created_at
              then touchRow 3 r else r) :=
  ⟨rfl, rfl,
    (insert_event_conflict_updates_metadata_only [sampleRow] stats0 evWatch 3 rfl rfl).1⟩

/-- A run of short-wait rate-limit responses makes the loop retry page 1
once per response, consuming no page budget; termination comes only from
the feed eventually answering differently (here: an empty success). -/
theorem loop_forbidden_replicate (cutoff now₀ : Int) :
    ∀ (n : Nat) (now : Int) (api : Nat) (pr : List Nat),
      now₀ ≤ now →
      getRepoEventsLoop cutoff
          (List.replicate n (GHResponse.forbidden (some now₀)) ++ [GHResponse.ok []]) 1
          now [] api 0 0 pr
        = ⟨[], api + n + 1, 0, 0, 0, pr ++ List.replicate (n + 1) 1⟩ := by
  intro n
  induction n with
  | zero => intro now api pr hle; rfl
  | succ k ih =>
    intro now api pr hle
    have h10 : ¬ (1 : Nat) > 10 := by omega
    have hw : max 0 (now₀ - now + 60) < 3600 := by
      rw [max_lt_iff]
      exact ⟨by norm_num, by omega⟩
    have hmax : (0 : Int) ≤ max 0 (now₀ - now + 60) := le_max_left 0 _
    rw [List.replicate_succ, List.cons_append]
    simp only [getRepoEventsLoop, if_neg h10, if_pos hw]
    rw [ih (now + max 0 (now₀ - now + 60)) (api + 1) (pr ++ [1]) (by omega)]
    simp only [FetchResult.mk.injEq, List.append_assoc, List.singleton_append,
      List.replicate_succ, and_true, true_and]
    omega

/-- C8: the 10-page cap does not bound the cursor's API calls: a feed
answering `n` consecutive rate-limit responses with a near reset time
makes the cursor fetch page 1 a total of `n + 1` times — one retry per
response, with no retry limit — so for `n ≥ 10` one repository costs
more than 10 API calls, and only the final non-403 answer ends the
loop. -/
theorem rate_limit_retries_unbounded (n : Nat) (now cutoff : Int) :
    (get_repo_events
        (List.replicate n (GHResponse.forbidden (some now)) ++ [GHResponse.ok []])
        now cutoff).apiCalls = n + 1
      ∧ (get_repo_events
          (List.replicate n (GHResponse.forbidden (some now)) ++ [GHResponse.ok []])
          now cutoff).pagesRequested = List.replicate (n + 1) 1 := by
  unfold get_repo_events
  rw [loop_forbidden_replicate cutoff now n now 0 [] le_rfl]
  constructor <;> simp

/-- C7: the modelled process exits 0 exactly on a normal completion —
valid configuration and a directory lookup that returns (possibly
empty) — and 1 exactly on a fatal top-level error: missing or
placeholder credentials, or the lookup itself erroring. The exit code is
always 0 or 1. -/
theorem exit_code_spec (url pw tok : Option String) (lookup : Except Unit (List RepoStep))
    (store : Store) (now cutoff : Int) :
    ((main_model url pw tok lookup store now cutoff).1 = 0
        ↔ (validSetup url pw tok = true ∧ ∃ repos, lookup = Except.ok repos))
      ∧ ((main_model url pw tok lookup store now cutoff).1 = 0
          ∨ (main_model url pw tok lookup store now cutoff).1 = 1) := by
  unfold main_model
  by_cases hv : validSetup url pw tok
  · cases lookup with
    | error u => simp [hv]
    | ok repos => simp [hv]
  · simp [hv]

/-- The split helper fails exactly when no slash remains. -/
theorem splitFirstAux_eq_none_iff :
    ∀ (l acc : List Char), splitFirstAux acc l = none ↔ '/' ∉ l := by
  intro l
  induction l with
  | nil => intro acc; simp [splitFirstAux]
  | cons c cs ih =>
    intro acc
    by_cases hc : c = '/'
    · subst hc
      simp [splitFirstAux]
    · rw [show splitFirstAux acc (c :: cs) = splitFirstAux (c :: acc) cs from by
        simp [splitFirstAux, hc]]
      rw [ih (c :: acc)]
      constructor
      · intro h hmem
        rcases List.mem_cons.mp hmem with h1 | h1
        · exact hc h1.symm
        · exact h h1
      · intro h hmem
        exact h (List.mem_cons_of_mem c hmem)

/-- A successful split decomposes the input at its first slash. -/
theorem splitFirstAux_eq_some :
    ∀ (l acc : List Char) (o n : String),
      splitFirstAux acc l = some (o, n) →
      ∃ p, o.data = acc.reverse ++ p ∧ l = p ++ '/' :: n.data ∧ '/' ∉ p := by
  intro l
  induction l with
  | nil => intro acc o n h; simp [splitFirstAux] at h
  | cons c cs ih =>
    intro acc o n h
    by_cases hc : c = '/'
    · subst hc
      simp [splitFirstAux] at h
      refine ⟨[], ?_, ?_, by simp⟩
      · rw [← h.1]; simp
      · rw [← h.2]; simp
    · simp only [splitFirstAux, if_neg hc] at h
      obtain ⟨p, hp1, hp2, hp3⟩ := ih (c :: acc) o n h
      refine ⟨c :: p, ?_, ?_, ?_⟩
      · rw [hp1]; simp
      · rw [hp2]; rfl
      · intro hm
        rcases List.mem_cons.mp hm with h1 | h1
        · exact hc h1.symm
        · exact hp3 h1

/-- Python `split("/", 1)` raises exactly on slash-free names. -/
theorem splitFirst_eq_none_iff (s : String) : splitFirst s = none ↔ '/' ∉ s.data :=
  splitFirstAux_eq_none_iff s.data []

/-- A successful `split("/", 1)` cuts at the first slash: the owner part
holds no slash, the name part is the untouched remainder. -/
theorem splitFirst_eq_some (s o n : String) (h : splitFirst s = some (o, n)) :
    s.data = o.data ++ '/' :: n.data ∧ '/' ∉ o.data := by
  obtain ⟨p, hp1, hp2, hp3⟩ := splitFirstAux_eq_some s.data [] o n h
  simp only [List.reverse_nil, List.nil_append] at hp1
  rw [hp1]
  exact ⟨hp2, hp3⟩

/-- Counterexample to C2 as stated: `evMulti.repo.name = "a/b/c"` holds
two slashes, yet the write is not rejected — `insert_event` reports
success, counts no error, and the store gains one row with owner `a` and
repository name `b/c` (Python `split("/", 1)` only raises when there is
no slash at all). -/
theorem multi_slash_accepted_counterexample :
    evMulti.repo.name.data.count '/' = 2
      ∧ (insert_event [] stats0 evMulti 0).2.2 = true
      ∧ (insert_event [] stats0 evMulti 0).2.1.errors = 0
      ∧ (insert_event [] stats0 evMulti 0).1.length = 1
      ∧ ((insert_event [] stats0 evMulti 0).1.head?.map
          (fun r => (r.repository_owner, r.repository_name))) = some ("a", "b/c") := by
  refine ⟨by decide, rfl, rfl, rfl, by decide⟩

/-- C2 amended: a RawEvent whose `repo.name` holds zero `/` characters is
rejected by `insert_event` — counted as an error and not written; one
whose `repo.name` holds one or more `/` is accepted: it is split at the
first slash into owner (slash-free) and name, the write succeeds and is
counted as inserted. -/
theorem insert_event_slash_dichotomy (store : Store) (stats : Stats) (e : RawEvent)
    (now : Int) :
    (('/' ∉ e.repo.name.data) →
      insert_event store stats e now
        = (store, { stats with errors := stats.errors + 1 }, false))
      ∧ (('/' ∈ e.repo.name.data) →
        ∃ o n, splitFirst e.repo.name = some (o, n)
          ∧ e.repo.name.data = o.data ++ '/' :: n.data
          ∧ '/' ∉ o.data
          ∧ (insert_event store stats e now).2.2 = true
          ∧ (insert_event store stats e now).2.1
              = { stats with events_inserted := stats.events_inserted + 1 }) := by
  constructor
  · intro h
    have hn : splitFirst e.repo.name = none := (splitFirst_eq_none_iff _).mpr h
    unfold insert_event
    rw [hn]
  · intro h
    have hn : splitFirst e.repo.name ≠ none := by
      rw [Ne, splitFirst_eq_none_iff]
      exact fun hc => hc h
    obtain ⟨⟨o, n⟩, hsome⟩ := Option.ne_none_iff_exists'.mp hn
    obtain ⟨hd, hnos⟩ := splitFirst_eq_some _ o n hsome
    refine ⟨o, n, hsome, hd, hnos, ?_, ?_⟩ <;>
      · unfold insert_event
        rw [hsome]

/-- Witness for the C2 dichotomy: the slash-free name `abc` is rejected
with an error and no write. -/
theorem insert_event_slash_dichotomy_witness :
    '/' ∉ evNoSlash.repo.name.data
      ∧ insert_event [] stats0 evNoSlash 0
          = ([], { stats0 with errors := stats0.errors + 1 }, false) :=
  ⟨by decide, (insert_event_slash_dichotomy [] stats0 evNoSlash 0).1 (by decide)⟩

/-- Counterexample to C4 as stated: a 403 whose reset time lies 3540
seconds ahead — a wait until reset of at most 1 hour — is not retried,
because the code tests `wait + 60 < 3600` on the margin-inclusive sleep:
the cursor makes a single API call and returns no events even though a
success page follows. -/
theorem reset_wait_boundary_counterexample :
    ((3540 : Int) - 0 ≤ 3600)
      ∧ (get_repo_events [GHResponse.forbidden (some 3540), GHResponse.ok [evWatch]]
          0 0).apiCalls = 1
      ∧ (get_repo_events [GHResponse.forbidden (some 3540), GHResponse.ok [evWatch]]
          0 0).events = [] := by
  refine ⟨by norm_num, rfl, rfl⟩

/-- C4 amended: for every page fetch of the paging loop — any page
within the cap, any events already collected, any counter and page-trace
state — that returns a forbidden/rate-limited response: when a
reset-time header is present and the sleep it implies — the wait until
reset plus a 60-second safety margin, floored at zero — is strictly
under 1 hour, the cursor sleeps that long and retries the *same* page,
keeping the collected events (the loop continues on the remaining
responses with the page number unchanged and the clock advanced); with a
longer sleep, or with no header, it stops paging and returns exactly the
events collected so far, whatever responses would have followed. -/
theorem forbidden_reset_handling (reset now cutoff : Int) (rest : List GHResponse)
    (page : Nat) (acc : List RawEvent) (api err raw : Nat) (pr : List Nat)
    (hpage : page ≤ 10) :
    (max 0 (reset - now + 60) < 3600 →
      getRepoEventsLoop cutoff (GHResponse.forbidden (some reset) :: rest)
          page now acc api err raw pr
        = getRepoEventsLoop cutoff rest page (now + max 0 (reset - now + 60)) acc
            (api + 1) err raw (pr ++ [page]))
      ∧ (3600 ≤ max 0 (reset - now + 60) →
        getRepoEventsLoop cutoff (GHResponse.forbidden (some reset) :: rest)
            page now acc api err raw pr
          = ⟨acc, api + 1, err, acc.length, raw, pr ++ [page]⟩)
      ∧ getRepoEventsLoop cutoff (GHResponse.forbidden none :: rest)
          page now acc api err raw pr
          = ⟨acc, api + 1, err, acc.length, raw, pr ++ [page]⟩ := by
  have h10 : ¬ page > 10 := by omega
  refine ⟨?_, ?_, ?_⟩
  · intro hw
    simp only [getRepoEventsLoop, if_neg h10, if_pos hw]
  · intro hw
    simp only [getRepoEventsLoop, if_neg h10, if_neg (not_lt.mpr hw)]
  · simp only [getRepoEventsLoop, if_neg h10]

/-- Witness for C4 amended, at a mid-run state (page 3, one event already
collected, nonzero counters): a reset time equal to `now` gives a
60-second sleep, under an hour, so page 3 is retried with the collected
event kept; a reset 3541 seconds ahead gives a 3601-second sleep, so the
loop stops and returns the collected event, ignoring the page that
follows. -/
theorem forbidden_reset_handling_witness :
    (3 : Nat) ≤ 10
      ∧ max 0 ((0 : Int) - 0 + 60) < 3600
      ∧ getRepoEventsLoop 0 [GHResponse.forbidden (some 0)] 3 0 [evWatch] 5 0 7 [1, 2]
          = getRepoEventsLoop 0 [] 3 (0 + max 0 ((0 : Int) - 0 + 60)) [evWatch] (5 + 1) 0 7
              ([1, 2] ++ [3])
      ∧ (3600 : Int) ≤ max 0 (3541 - 0 + 60)
      ∧ getRepoEventsLoop 0 [GHResponse.forbidden (some 3541), GHResponse.ok [evWatch]] 3 0
            [evWatch] 5 0 7 [1, 2]
          = ⟨[evWatch], 5 + 1, 0, [evWatch].length, 7, [1, 2] ++ [3]⟩ :=
  ⟨by decide, by decide,
    (forbidden_reset_handling 0 0 0 [] 3 [evWatch] 5 0 7 [1, 2] (by decide)).1 (by decide),
    by decide,
    (forbidden_reset_handling 3541 0 0 [GHResponse.ok [evWatch]] 3 [evWatch] 5 0 7 [1, 2]
        (by decide)).2.1 (by decide)⟩

/-- Every page number the loop requests lies between 1 and 10: retries
repeat a page, successes advance it, and the loop exits past 10. -/
theorem loop_pages_in_range (cutoff : Int) :
    ∀ (resps : List GHResponse) (page : Nat) (now : Int) (acc : List RawEvent)
      (api err raw : Nat) (pr : List Nat),
      1 ≤ page →
      (∀ q ∈ pr, 1 ≤ q ∧ q ≤ 10) →
      ∀ q ∈ (getRepoEventsLoop cutoff resps page now acc api err raw pr).pagesRequested,
        1 ≤ q ∧ q ≤ 10 := by
  intro resps
  induction resps with
  | nil =>
    intro page now acc api err raw pr hp hpr q hq
    by_cases h : page > 10 <;> simp [getRepoEventsLoop, h] at hq <;> exact hpr q hq
  | cons resp rest ih =>
    intro page now acc api err raw pr hp hpr q hq
    by_cases h : page > 10
    · simp [getRepoEventsLoop, h] at hq; exact hpr q hq
    · have hpr' : ∀ x ∈ pr ++ [page], 1 ≤ x ∧ x ≤ 10 := by
        intro x hx
        rcases List.mem_append.mp hx with hx | hx
        · exact hpr x hx
        · rcases List.mem_singleton.mp hx with rfl
          exact ⟨hp, by omega⟩
      cases resp with
      | exn => simp [getRepoEventsLoop, h] at hq; exact hpr q hq
      | notFound =>
        simp [getRepoEventsLoop, h] at hq
        exact hpr' q (by simpa using hq)
      | otherStatus =>
        simp [getRepoEventsLoop, h] at hq
        exact hpr' q (by simpa using hq)
      | forbidden reset =>
        cases reset with
        | none =>
          simp [getRepoEventsLoop, h] at hq
          exact hpr' q (by simpa using hq)
        | some r =>
          by_cases hw : max 0 (r - now + 60) < 3600
          · simp only [getRepoEventsLoop, if_neg h, if_pos hw] at hq
            exact ih page (now + max 0 (r - now + 60)) acc (api + 1) err raw
              (pr ++ [page]) hp hpr' q hq
          · simp [getRepoEventsLoop, h, hw] at hq
            exact hpr' q (by simpa using hq)
      | ok pageEvents =>
        by_cases hemp : pageEvents.isEmpty
        · simp [getRepoEventsLoop, h, hemp] at hq
          exact hpr' q (by simpa using hq)
        · by_cases hhit : (filterPage cutoff pageEvents).2
          · simp [getRepoEventsLoop, h, hemp, hhit] at hq
            exact hpr' q (by simpa using hq)
          · simp only [getRepoEventsLoop, if_neg h, Bool.not_eq_true] at hq
            rw [if_neg (by simp [hemp]), if_neg (by simp [hhit])] at hq
            exact ih (page + 1) now (acc ++ (filterPage cutoff pageEvents).1) (api + 1)
              err (raw + pageEvents.length) (pr ++ [page]) (by omega) hpr' q hq

/-- When each successful page carries at most 100 records, the raw
records considered stay under the remaining page budget times 100. -/
theorem loop_raw_bound (cutoff : Int) :
    ∀ (resps : List GHResponse) (page : Nat) (now : Int) (acc : List RawEvent)
      (api err raw : Nat) (pr : List Nat),
      1 ≤ page →
      (∀ evs, GHResponse.ok evs ∈ resps → evs.length ≤ 100) →
      (getRepoEventsLoop cutoff resps page now acc api err raw pr).rawSeen
        ≤ raw + (11 - page) * 100 := by
  intro resps
  induction resps with
  | nil =>
    intro page now acc api err raw pr h1 hok
    by_cases h : page > 10 <;> simp [getRepoEventsLoop, h]
  | cons resp rest ih =>
    intro page now acc api err raw pr h1 hok
    have hok' : ∀ evs, GHResponse.ok evs ∈ rest → evs.length ≤ 100 :=
      fun evs hm => hok evs (List.mem_cons_of_mem _ hm)
    by_cases h : page > 10
    · simp [getRepoEventsLoop, h]
    · cases resp with
      | exn => simp [getRepoEventsLoop, h]
      | notFound => simp [getRepoEventsLoop, h]
      | otherStatus => simp [getRepoEventsLoop, h]
      | forbidden reset =>
        cases reset with
        | none => simp [getRepoEventsLoop, h]
        | some r =>
          by_cases hw : max 0 (r - now + 60) < 3600
          · simp only [getRepoEventsLoop, if_neg h, if_pos hw]
            exact ih page (now + max 0 (r - now + 60)) acc (api + 1) err raw
              (pr ++ [page]) h1 hok'
          · simp [getRepoEventsLoop, h, hw]
      | ok pageEvents =>
        have hlen : pageEvents.length ≤ 100 :=
          hok pageEvents (List.mem_cons_self _ _)
        by_cases hemp : pageEvents.isEmpty
        · simp [getRepoEventsLoop, h, hemp]
        · by_cases hhit : (filterPage cutoff pageEvents).2
          · simp [getRepoEventsLoop, h, hemp, hhit]
            omega
          · simp only [getRepoEventsLoop, if_neg h, Bool.not_eq_true]
            rw [if_neg (by simp [hemp]), if_neg (by simp [hhit])]
            have hrec := ih (page + 1) now (acc ++ (filterPage cutoff pageEvents).1)
              (api + 1) err (raw + pageEvents.length) (pr ++ [page]) (by omega) hok'
            omega

/-- C5: for every feed whose successful pages carry at most 100 records
(the cursor requests `per_page=100`), at most 10 distinct page numbers
are ever fetched and at most 10 × 100 raw candidate records are
considered for one repository, whatever the feed answers — even pages
that never leave the cutoff window. -/
theorem page_cap (responses : List GHResponse) (now cutoff : Int)
    (hsize : ∀ evs, GHResponse.ok evs ∈ responses → evs.length ≤ 100) :
    (get_repo_events responses now cutoff).pagesRequested.toFinset.card ≤ 10
      ∧ (get_repo_events responses now cutoff).rawSeen ≤ 10 * 100 := by
  unfold get_repo_events
  constructor
  · have hmem := loop_pages_in_range cutoff responses 1 now [] 0 0 0 [] le_rfl (by simp)
    have hsub : (getRepoEventsLoop cutoff responses 1 now [] 0 0 0 []).pagesRequested.toFinset
        ⊆ Finset.Icc 1 10 := by
      intro q hq
      rw [List.mem_toFinset] at hq
      rw [Finset.mem_Icc]
      exact hmem q hq
    calc (getRepoEventsLoop cutoff responses 1 now [] 0 0 0 []).pagesRequested.toFinset.card
        ≤ (Finset.Icc 1 10).card := Finset.card_le_card hsub
      _ = 10 := by simp
  · have hb := loop_raw_bound cutoff responses 1 now [] 0 0 0 [] le_rfl hsize
    omega

/-- Witness for C5 on a one-page feed. -/
theorem page_cap_witness :
    (∀ evs, GHResponse.ok evs ∈ [GHResponse.ok [evWatch]] → evs.length ≤ 100)
      ∧ (get_repo_events [GHResponse.ok [evWatch]] 0 0).pagesRequested.toFinset.card ≤ 10 := by
  have hsize : ∀ evs, GHResponse.ok evs ∈ [GHResponse.ok [evWatch]] → evs.length ≤ 100 := by
    intro evs hm
    rw [List.mem_singleton] at hm
    injection hm with hm'
    subst hm'
    norm_num
  exact ⟨hsize, (page_cap [GHResponse.ok [evWatch]] 0 0 hsize).1⟩

/-- A page whose records all sit inside the cutoff window is filtered by
event type alone and does not stop pagination. -/
theorem filterPage_all_in_window (cutoff : Int) :
    ∀ (l : List RawEvent), (∀ e ∈ l, cutoff ≤ e.created_at) →
      filterPage cutoff l = (l.filter (fun e => allowedTypes.contains e.type), false) := by
  intro l
  induction l with
  | nil => intro h; simp [filterPage]
  | cons x xs ih =>
    intro h
    have hx : cutoff ≤ x.created_at := h x (List.mem_cons_self x xs)
    have hxs : ∀ e ∈ xs, cutoff ≤ e.created_at :=
      fun e he => h e (List.mem_cons_of_mem x he)
    by_cases ht : allowedTypes.contains x.type <;>
      simp [filterPage, hx, ih hxs, List.filter_cons, ht]

/-- A page of in-window records followed by one below-cutoff record stops
pagination there: the filter keeps the in-window prefix (type-filtered)
and reports the cutoff hit; nothing past the hit is examined. -/
theorem filterPage_append_hit (cutoff : Int) (eN : RawEvent)
    (hN : eN.created_at < cutoff) :
    ∀ (pre post : List RawEvent), (∀ e ∈ pre, cutoff ≤ e.created_at) →
      filterPage cutoff (pre ++ eN :: post)
        = (pre.filter (fun e => allowedTypes.contains e.type), true) := by
  intro pre
  induction pre with
  | nil =>
    intro post h
    simp [filterPage, not_le.mpr hN]
  | cons x xs ih =>
    intro post h
    have hx : cutoff ≤ x.created_at := h x (List.mem_cons_self x xs)
    have hxs : ∀ e ∈ xs, cutoff ≤ e.created_at :=
      fun e he => h e (List.mem_cons_of_mem x he)
    by_cases ht : allowedTypes.contains x.type <;>
      simp [filterPage, hx, ih post hxs, List.filter_cons, ht]

/-- Running the loop over nonempty in-window pages and then a page whose
tail holds the first below-cutoff record returns the type-filtered
in-window prefix and makes one API call per page up to the hit,
whatever responses would follow. -/
theorem loop_ok_pages_until_hit (cutoff : Int) (pk₁ pk₂ : List RawEvent) (eN : RawEvent)
    (rest : List GHResponse) (hN : eN.created_at < cutoff)
    (hpk : ∀ e ∈ pk₁, cutoff ≤ e.created_at) :
    ∀ (ps₁ : List (List RawEvent)) (page : Nat) (now : Int) (acc : List RawEvent)
      (api err raw : Nat) (pr : List Nat),
      1 ≤ page → page + ps₁.length ≤ 10 →
      (∀ p ∈ ps₁, p ≠ []) →
      (∀ p ∈ ps₁, ∀ e ∈ p, cutoff ≤ e.created_at) →
      (getRepoEventsLoop cutoff
          (ps₁.map GHResponse.ok ++ GHResponse.ok (pk₁ ++ eN :: pk₂) :: rest)
          page now acc api err raw pr).events
          = acc ++ (ps₁.flatten ++ pk₁).filter (fun e => allowedTypes.contains e.type)
        ∧ (getRepoEventsLoop cutoff
            (ps₁.map GHResponse.ok ++ GHResponse.ok (pk₁ ++ eN :: pk₂) :: rest)
            page now acc api err raw pr).apiCalls = api + ps₁.length + 1 := by
  intro ps₁
  induction ps₁ with
  | nil =>
    intro page now acc api err raw pr h1 hcap hne hwin
    have h10 : ¬ page > 10 := by simp at hcap; omega
    have hfp := filterPage_append_hit cutoff eN hN pk₁ pk₂ hpk
    rw [List.map_nil, List.nil_append]
    simp only [getRepoEventsLoop, if_neg h10]
    rw [if_neg (by simp), hfp]
    simp

  | cons p ps ih =>
    intro page now acc api err raw pr h1 hcap hne hwin
    have hlen : page + (ps.length + 1) ≤ 10 := by simpa using hcap
    have h10 : ¬ page > 10 := by omega
    have hpne : p ≠ [] := hne p (List.mem_cons_self p ps)
    have hpwin : ∀ e ∈ p, cutoff ≤ e.created_at := hwin p (List.mem_cons_self p ps)
    have hfp := filterPage_all_in_window cutoff p hpwin
    have hpemp : ¬ p.isEmpty = true := by
      cases p with
      | nil => exact absurd rfl hpne
      | cons a as => simp
    rw [List.map_cons, List.cons_append]
    simp only [getRepoEventsLoop, if_neg h10]
    rw [if_neg hpemp, hfp]
    simp only [if_neg (by simp : ¬ ((p.filter fun e => allowedTypes.contains e.type,
      false).2 = true))]
    have hrec := ih (page + 1) now (acc ++ p.filter (fun e => allowedTypes.contains e.type))
      (api + 1) err (raw + p.length) (pr ++ [page]) (by omega) (by omega)
      (fun q hq => hne q (List.mem_cons_of_mem p hq))
      (fun q hq => hwin q (List.mem_cons_of_mem p hq))
    constructor
    · rw [hrec.1]
      simp [List.filter_append, List.append_assoc]
    · rw [hrec.2]
      simp
      omega

/-- Counterexample to C3 as stated: a feed whose first event is a
`PushEvent` inside the window, followed by a below-cutoff event, returns
the empty list — not "exactly events 1..N-1 whatever their event
types" — because the cursor also drops events whose type is outside the
allow list. -/
theorem cutoff_claim_counterexample :
    ((0 : Int) ≤ evPush.created_at)
      ∧ (evOld.created_at < (0 : Int))
      ∧ (get_repo_events [GHResponse.ok [evPush, evOld]] 0 0).events = []
      ∧ (get_repo_events [GHResponse.ok [evPush, evOld]] 0 0).events.length ≠ 1 := by
  refine ⟨by decide, by decide, rfl, by decide⟩

/-- C3 amended: in a feed of nonempty pages whose records before event N
are all in the window, with event N below the cutoff and within the
10-page cap, the cursor returns exactly those of events 1..N-1 whose
type is in the allow list, stops at the page carrying event N — one API
call per page up to it, whatever would follow — and never looks past
event N. -/
theorem cutoff_stops_paging (ps₁ : List (List RawEvent)) (pk₁ pk₂ : List RawEvent)
    (eN : RawEvent) (rest : List GHResponse) (now cutoff : Int)
    (hN : eN.created_at < cutoff)
    (hpre : ∀ e ∈ ps₁.flatten ++ pk₁, cutoff ≤ e.created_at)
    (hne : ∀ p ∈ ps₁, p ≠ [])
    (hlen : ps₁.length ≤ 9) :
    (get_repo_events
        (ps₁.map GHResponse.ok ++ GHResponse.ok (pk₁ ++ eN :: pk₂) :: rest)
        now cutoff).events
        = (ps₁.flatten ++ pk₁).filter (fun e => allowedTypes.contains e.type)
      ∧ (get_repo_events
          (ps₁.map GHResponse.ok ++ GHResponse.ok (pk₁ ++ eN :: pk₂) :: rest)
          now cutoff).apiCalls = ps₁.length + 1 := by
  have hpk : ∀ e ∈ pk₁, cutoff ≤ e.created_at :=
    fun e he => hpre e (List.mem_append_right _ he)
  have hwin : ∀ p ∈ ps₁, ∀ e ∈ p, cutoff ≤ e.created_at := by
    intro p hp e he
    exact hpre e (List.mem_append_left _ (List.mem_flatten.mpr ⟨p, hp, he⟩))
  unfold get_repo_events
  have h := loop_ok_pages_until_hit cutoff pk₁ pk₂ eN rest hN hpk ps₁ 1 now [] 0 0 0 []
    le_rfl (by omega) hne hwin
  refine ⟨by rw [h.1]; simp, by rw [h.2]; omega⟩

/-- Witness for C3 amended: one full in-window page, then a page opening
with the below-cutoff event. -/
theorem cutoff_stops_paging_witness :
    (evOld.created_at < (0 : Int))
      ∧ (get_repo_events
          ([[evWatch]].map GHResponse.ok ++ GHResponse.ok ([] ++ evOld :: []) :: [])
          0 0).events
          = ([[evWatch]].flatten ++ []).filter (fun e => allowedTypes.contains e.type)
      ∧ (get_repo_events
          ([[evWatch]].map GHResponse.ok ++ GHResponse.ok ([] ++ evOld :: []) :: [])
          0 0).apiCalls = [[evWatch]].length + 1 := by
  have h := cutoff_stops_paging [[evWatch]] [] [] evOld [] 0 0 (by decide)
    (by intro e he; simp at he; subst he; decide)
    (by intro p hp; simp at hp; subst hp; simp)
    (by simp)
  exact ⟨by decide, h.1, h.2⟩

/-- A key present in the table stays present through an upsert: the
conflict path only touches metadata, the fresh path appends. -/
theorem upsert_hasKey_mono (store : Store) (row : CacheRow) (now : Int)
    (eid : String) (cat : Int) (h : hasKey store eid cat = true) :
    hasKey (upsert store row now) eid cat = true := by
  unfold upsert
  by_cases hc :
      store.any (fun r => r.event_id == row.event_id && r.created_at == row.created_at)
  · rw [if_pos hc]
    unfold hasKey at h ⊢
    rw [List.any_eq_true] at h ⊢
    obtain ⟨r, hr, hrp⟩ := h
    refine ⟨if r.event_id == row.event_id && r.created_at == row.created_at
        then touchRow now r else r, List.mem_map_of_mem _ hr, ?_⟩
    by_cases hm : r.event_id == row.event_id && r.created_at == row.created_at
    · rw [if_pos hm]
      simpa [touchRow] using hrp
    · rw [if_neg hm]
      exact hrp
  · rw [if_neg hc]
    unfold hasKey at h ⊢
    rw [List.any_eq_true] at h ⊢
    obtain ⟨r, hr, hrp⟩ := h
    exact ⟨r, List.mem_append_left _ hr, hrp⟩

/-- A key present in the table stays present through `insert_event`. -/
theorem insert_event_hasKey_mono (store : Store) (stats : Stats) (e : RawEvent)
    (now : Int) (eid : String) (cat : Int) (h : hasKey store eid cat = true) :
    hasKey (insert_event store stats e now).1 eid cat = true := by
  unfold insert_event
  cases hs : splitFirst e.repo.name with
  | none => exact h
  | some ow => exact upsert_hasKey_mono store _ now eid cat h

/-- A key present in the table stays present through the insert loop. -/
theorem foldl_insertStep_hasKey_mono (now : Int) :
    ∀ (l : List RawEvent) (p : Store × Stats) (eid : String) (cat : Int),
      hasKey p.1 eid cat = true →
      hasKey ((l.foldl (insertStep now) p).1) eid cat = true := by
  intro l
  induction l with
  | nil => intro p eid cat h; exact h
  | cons x xs ih =>
    intro p eid cat h
    rw [List.foldl_cons]
    exact ih (insertStep now p x) eid cat
      (insert_event_hasKey_mono p.1 p.2 x now eid cat h)

/-- A key present in the table stays present through one repository's
backfill. -/
theorem backfill_repository_hasKey_mono (store : Store) (stats : Stats)
    (responses : List GHResponse) (now cutoff : Int) (eid : String) (cat : Int)
    (h : hasKey store eid cat = true) :
    hasKey (backfill_repository store stats responses now cutoff).1 eid cat = true := by
  simp only [backfill_repository]
  by_cases hemp : (get_repo_events responses now cutoff).events.isEmpty = true
  · rw [if_pos hemp]
    exact h
  · rw [if_neg hemp]
    exact foldl_insertStep_hasKey_mono now _ _ eid cat h

/-- A key present in the table stays present through one iteration of
the repository loop, raising or not. -/
theorem run_step_hasKey_mono (now cutoff : Int) (p : Store × Stats) (r : RepoStep)
    (eid : String) (cat : Int) (h : hasKey p.1 eid cat = true) :
    hasKey (run_step now cutoff p r).1 eid cat = true := by
  cases r with
  | ok responses =>
    simp only [run_step]
    exact backfill_repository_hasKey_mono p.1 p.2 responses now cutoff eid cat h
  | raisesAfter responses k =>
    simp only [run_step]
    exact foldl_insertStep_hasKey_mono now _ _ eid cat h

/-- A key present in the table stays present through the whole run. -/
theorem run_backfill_hasKey_mono (now cutoff : Int) :
    ∀ (repos : List RepoStep) (store : Store) (stats : Stats) (eid : String) (cat : Int),
      hasKey store eid cat = true →
      hasKey (run_backfill store stats repos now cutoff).1 eid cat = true := by
  intro repos
  induction repos with
  | nil => intro store stats eid cat h; exact h
  | cons r rs ih =>
    intro store stats eid cat h
    unfold run_backfill
    rw [List.foldl_cons]
    exact ih (run_step now cutoff (store, stats) r).1
      (run_step now cutoff (store, stats) r).2 eid cat
      (run_step_hasKey_mono now cutoff (store, stats) r eid cat h)

/-- One write never decreases the `errors` counter. -/
theorem insertStep_errors_mono (now : Int) (p : Store × Stats) (e : RawEvent) :
    p.2.errors ≤ (insertStep now p e).2.errors := by
  unfold insertStep insert_event
  cases h : splitFirst e.repo.name <;> simp [h]

/-- The insert loop never decreases the `errors` counter. -/
theorem foldl_insertStep_errors_mono (now : Int) :
    ∀ (l : List RawEvent) (p : Store × Stats),
      p.2.errors ≤ ((l.foldl (insertStep now) p).2).errors := by
  intro l
  induction l with
  | nil => intro p; exact le_rfl
  | cons x xs ih =>
    intro p
    rw [List.foldl_cons]
    exact le_trans (insertStep_errors_mono now p x) (ih (insertStep now p x))

/-- C6: a repository whose processing raises is isolated: the run equals
the run that, from the state after the earlier repositories, counts the
raising repository's error and continues with the remaining repositories
(so later repositories are still attempted); the raising step grows the
`errors` counter by at least one; and every `(event_id, created_at)` key
committed by earlier repositories is still in the store at the end of
the whole run. -/
theorem run_isolation (store : Store) (stats : Stats) (rs₁ : List RepoStep)
    (responses : List GHResponse) (k : Nat) (rs₂ : List RepoStep) (now cutoff : Int) :
    run_backfill store stats (rs₁ ++ RepoStep.raisesAfter responses k :: rs₂) now cutoff
        = run_backfill
            (run_step now cutoff (run_backfill store stats rs₁ now cutoff)
              (RepoStep.raisesAfter responses k)).1
            (run_step now cutoff (run_backfill store stats rs₁ now cutoff)
              (RepoStep.raisesAfter responses k)).2 rs₂ now cutoff
      ∧ (run_backfill store stats rs₁ now cutoff).2.errors + 1
          ≤ (run_step now cutoff (run_backfill store stats rs₁ now cutoff)
              (RepoStep.raisesAfter responses k)).2.errors
      ∧ (∀ eid cat, hasKey (run_backfill store stats rs₁ now cutoff).1 eid cat = true →
          hasKey (run_backfill store stats
              (rs₁ ++ RepoStep.raisesAfter responses k :: rs₂) now cutoff).1
            eid cat = true) := by
  refine ⟨?_, ?_, ?_⟩
  · unfold run_backfill
    rw [List.foldl_append, List.foldl_cons]
  · have hq := foldl_insertStep_errors_mono now
      ((get_repo_events responses now cutoff).events.take k)
      ((run_backfill store stats rs₁ now cutoff).1,
        addFetchStats (run_backfill store stats rs₁ now cutoff).2
          (get_repo_events responses now cutoff))
    simp only [run_step, addFetchStats] at hq ⊢
    omega
  · intro eid cat h
    unfold run_backfill
    rw [List.foldl_append, List.foldl_cons]
    exact run_backfill_hasKey_mono now cutoff rs₂ _ _ eid cat
      (run_step_hasKey_mono now cutoff (run_backfill store stats rs₁ now cutoff)
        (RepoStep.raisesAfter responses k) eid cat h)

/-- Witness for C6: a key committed before a raising repository survives
the raise. -/
theorem run_isolation_witness :
    hasKey (run_backfill [sampleRow] stats0 [] 0 0).1
        sampleRow.event_id sampleRow.created_at = true
      ∧ hasKey (run_backfill [sampleRow] stats0
            ([] ++ RepoStep.raisesAfter [] 0 :: []) 0 0).1
          sampleRow.event_id sampleRow.created_at = true :=
  ⟨rfl, (run_isolation [sampleRow] stats0 [] [] 0 [] 0 0).2.2
      sampleRow.event_id sampleRow.created_at rfl⟩

end Backfill
